import Mathlib

/-!
Verification development for the metric-path translation engine of
criteo/graphite-remote-adapter.

Go strings are byte sequences; we model them as `List Nat` (one entry per
byte).  Metrics (Go `model.Metric`, a map from label name to label value)
are modelled as association lists with pairwise distinct keys.  Compiled
regular expressions are modelled extensionally as boolean predicates on
byte strings (the compiled matcher).  Compiled templates are modelled as
functions from the evaluation context to `Except Err Str` (the outcome of
`Execute`).  Floating point sample values are modelled by their IEEE
classification (NaN / infinite flags) plus an abstract rendered text,
since the write path only branches on the classification.
-/

namespace Gra

/-- Byte strings: one natural number per byte. -/
abbrev Str : Type := List Nat

/-- Errors returned by the modelled functions. -/
inductive Err where
  /-- `errors.New("invalid sample value")` in `ToDatapoints`. -/
  | invalidValue : Err
  /-- The "odd number of nodes in path" error of `MetricLabelsFromPath`. -/
  | oddNodes : Err
  /-- A template execution error, tagged by an abstract code. -/
  | tmplErr (code : Nat) : Err
  /-- Stands for the nil-template dereference that `Execute` on the zero
  `config.Template` would hit (a matching rule with `continue: true` and no
  template); the Go code does not guard this case. -/
  | nilTemplate : Err
  deriving DecidableEq, Repr

/-! ## Escaping codec

`Unescape` is taken from the sources (utils package).  The `Escape`
function and the `symbols` constant it refers to are referenced by the
sources (tests, the template function map, `defaultPath`) but their
definitions are not among them, so they are modelled from the spec. -/

/-- Modelled from the spec: the set of structurally significant bytes that the
codec backslash-escapes (spec 4.1 lists path separator, braces, comma, equals,
quote, backslash; the repository's TestEscape/TestUnescape additionally pin
parentheses and the single quote).  Concretely the bytes of `(){},=.'"\`.
The constant is used by `Unescape` in the utils package, whose definition of
`symbols` is missing from the sources. -/
def symbols : Str := [40, 41, 123, 125, 44, 61, 46, 39, 34, 92]

/-- Printable ASCII other than space: the bytes that may pass through the codec
unchanged (spec 4.1: alphanumerics and a whitelist of punctuation). -/
def printable (b : Nat) : Bool := 33 ≤ b && b ≤ 126

/-- Uppercase hexadecimal digit of a value below 16, as a byte. -/
def hexDigit (n : Nat) : Nat := if n < 10 then 48 + n else 55 + n

/-- Standard percent-encoding of one byte: `%` followed by two uppercase hex
digits. -/
def percentEnc (b : Nat) : Str := [37, hexDigit (b / 16), hexDigit (b % 16)]

/-- Modelled from the spec: the translation of a single byte under `Escape`
(the function itself is missing from the sources).  The path separator,
percent, slash and equals are percent-encoded; the remaining significant bytes
are backslash-escaped; other printable ASCII passes unchanged; everything else
(controls, space, non-ASCII bytes) is percent-encoded.  The byte classes are
pinned by TestEscape and TestDefaultPathsFromMetric. -/
def escapeByte (b : Nat) : Str :=
  if b == 46 || b == 37 || b == 47 || b == 61 then percentEnc b
  else if symbols.contains b then [92, b]
  else if printable b then [b]
  else percentEnc b

/-- Modelled from the spec: `Escape` rewrites every byte of the value in
sequence. -/
def Escape (s : Str) : Str := s.flatMap escapeByte

/-- Hexadecimal digit test of Go's `net/url` (`ishex`): accepts both cases. -/
def isHexB (b : Nat) : Bool :=
  (48 ≤ b && b ≤ 57) || (97 ≤ b && b ≤ 102) || (65 ≤ b && b ≤ 70)

/-- Value of one hexadecimal digit byte (either case). -/
def unhexB (b : Nat) : Nat :=
  if 48 ≤ b && b ≤ 57 then b - 48
  else if 97 ≤ b && b ≤ 102 then b - 87
  else b - 55

/-- Model of Go's `url.PathUnescape`: decode every `%XX` sequence (two hex
digits, either case); a `%` not followed by two hex digits is an error
(`none`); every other byte is copied. -/
def pathUnescape : Str → Option Str
  | [] => some []
  | b :: rest =>
    if b == 37 then
      match rest with
      | h1 :: h2 :: rest' =>
        if isHexB h1 && isHexB h2 then
          (pathUnescape rest').map (fun r => (unhexB h1 * 16 + unhexB h2) :: r)
        else none
      | _ => none
    else (pathUnescape rest).map (fun r => b :: r)

/-- The backslash pass of `Unescape` (utils package): a backslash that is not
the last byte is dropped exactly when the next byte is in `symbols`; every
other byte is copied (the next byte is then processed on its own). -/
def unescapeSlashes : Str → Str
  | [] => []
  | [b] => [b]
  | b :: n :: rest =>
    if b == 92 && symbols.contains n then unescapeSlashes (n :: rest)
    else b :: unescapeSlashes (n :: rest)

/-- `Unescape` from the utils package: first percent-decode, discarding the
error exactly as the Go code does (`new, _ := url.PathUnescape(tv)` leaves
`new` empty on error), then drop backslashes immediately preceding a
significant byte. -/
def Unescape (tv : Str) : Str := unescapeSlashes ((pathUnescape tv).getD [])

/-! ## Data model -/

/-- A metric (Go `model.Metric`): a map from label name to label value,
modelled as an association list of byte strings.  The client code reads it
only through indexing (absent keys give the empty string), ranging over its
keys, and its fingerprint. -/
abbrev Metric : Type := List (Str × Str)

/-- The bytes of `model.MetricNameLabel`, the reserved name `__name__`. -/
def nameLabel : Str := [95, 95, 110, 97, 109, 101, 95, 95]

/-- Go map indexing `m[l]`: the value of the label, the empty string when the
label is absent. -/
def mGet (m : Metric) (k : Str) : Str := ((m.lookup k).getD [])

/-- The label names of a metric, in container order (Go `for l := range m`;
the range order of a Go map is unspecified, which is the point of the
sort-before-use discipline verified below). -/
def mKeys (m : Metric) : List Str := m.map (fun p => p.1)

/-- A compiled regular expression (`config.Regexp`), modelled extensionally by
its matcher: `config.Regexp.UnmarshalYAML` compiles the user pattern anchored
at both ends (`^(?:pattern)$`) and the rule walk only ever calls
`MatchString`. -/
abbrev Regexp : Type := Str → Bool

/-- The template evaluation context built by `loadContext`: Go merges the
template-data overlay into one map and stores the metric's labels under the
reserved key `labels`; templates read either part, so the context is modelled
as the pair of the two maps. -/
structure Ctx where
  data : List (Str × Str)
  labels : List (Str × Str)

/-- The template-data overlay (`template_data` configuration).  Its values are
arbitrary parsed YAML; the engine only copies them into the context, so they
are abstracted to byte strings. -/
abbrev TData : Type := List (Str × Str)

/-- A parsed rule template (`config.Template`).  The Go code distinguishes the
zero value (rule without a template) from a compiled template via
`rule.Tmpl == config.Template{}`; a compiled template is modelled by the
outcome of its `Execute` on a context. -/
inductive Template where
  | unset : Template
  | set (f : Ctx → Except Err Str) : Template

/-- A configured rule (`config.Rule`). -/
structure Rule where
  Tmpl : Template
  Match : List (Str × Str)
  MatchRE : List (Str × Regexp)
  Continue : Bool

/-- The three output formats of `paths.Format`. -/
inductive Format where
  | carbon | carbonTags | carbonOpenMetrics
  deriving DecidableEq, Repr

/-- The state of the paths cache (package-level `pathsCache` /
`pathsCacheEnabled`), modelled as explicit state: a flag plus the entries of
the go-cache map from fingerprint keys to stored path lists. -/
structure CacheState where
  enabled : Bool
  entries : List (Metric × List Str)
  deriving DecidableEq, Repr

/-- Byte-wise lexicographic comparison of byte strings, as a boolean: the
order used by Go's `<` on strings and hence by `sort.Sort` on label names. -/
def strLeB : Str → Str → Bool
  | [], _ => true
  | _ :: _, [] => false
  | a :: as, b :: bs => if a < b then true else if b < a then false else strLeB as bs

/-- The lexicographic order on byte strings, as a proposition. -/
def strLe (a b : Str) : Prop := strLeB a b = true

instance : DecidableRel strLe := fun a b => by
  unfold strLe; infer_instance

/-- Lexicographic comparison of label pairs (name first, then value), used
only to give the fingerprint a canonical order. -/
def pairLeB (p q : Str × Str) : Bool :=
  if p.1 == q.1 then strLeB p.2 q.2 else strLeB p.1 q.1

/-- The order on label pairs, as a proposition. -/
def pairLe (p q : Str × Str) : Prop := pairLeB p q = true

instance : DecidableRel pairLe := fun p q => by
  unfold pairLe; infer_instance

/-- The fingerprint of a metric (`m.Fingerprint().String()`): a stable hash of
the full label set, i.e. the same key for any two metrics with equal label
sets.  It is modelled by the canonical (sorted) form of the association
list. -/
def fingerprint (m : Metric) : Metric :=
  List.insertionSort pairLe m

/-- go-cache `Get`. -/
def cacheGet (k : Metric) (st : CacheState) : Option (List Str) :=
  st.entries.lookup k

/-- go-cache `Set` on the entries: replace the entry with this key, or add
it. -/
def setEntry (k : Metric) (v : List Str) : List (Metric × List Str) → List (Metric × List Str)
  | [] => [(k, v)]
  | (k', v') :: rest => if k' == k then (k, v) :: rest else (k', v') :: setEntry k v rest

/-- go-cache `Set`. -/
def cacheSet (k : Metric) (v : List Str) (st : CacheState) : CacheState :=
  { st with entries := setEntry k v st.entries }

/-! ## Rule matching and the rule walk (paths package) -/

/-- The `match` function of the paths package (renamed, `match` being reserved
here): every exact entry must equal the metric's value for that label (an
absent label reads as the empty string), and every regex entry must match the
(possibly absent, hence empty) value of its label. -/
def matchRule (m : Metric) (mtch : List (Str × Str)) (mre : List (Str × Regexp)) : Bool :=
  mtch.all (fun p => mGet m p.1 == p.2) && mre.all (fun q => q.2 (mGet m q.1))

/-- `loadContext`: copy the template-data overlay and store the metric's label
map under the reserved `labels` entry (modelled as the second field). -/
def loadContext (td : TData) (m : Metric) : Ctx := ⟨td, m⟩

/-- Whether the template field equals the zero value `config.Template{}` (the
silencing-rule test of the rule walk). -/
def Template.isUnset : Template → Bool
  | .unset => true
  | .set _ => false

/-- `rule.Tmpl.Execute` on the evaluation context.  On the zero template the
Go code would dereference a nil `*template.Template`; that (unreached by every
theorem below) case is modelled as an error. -/
def Template.exec : Template → Ctx → Except Err Str
  | .unset, _ => .error .nilTemplate
  | .set f, ctx => f ctx

/-- The loop body of `templatedPaths`, with the `paths` accumulator and the
`stop` flag as explicit arguments.  A non-matching rule is skipped; a matching
rule with `continue: false` and no template returns nil (discarding the
accumulator), `stopped`, and no error; otherwise the template is executed:
an execution error breaks the loop, returning the accumulator with the error;
a rendered path is appended, and the walk continues only while `continue`
is true. -/
def tpGo (m : Metric) (td : TData) : List Rule → List Str → Bool → List Str × Bool × Option Err
  | [], acc, stop => (acc, stop, none)
  | r :: rest, acc, stop =>
    if matchRule m r.Match r.MatchRE = false then tpGo m td rest acc stop
    else if r.Continue = false ∧ r.Tmpl.isUnset = true then ([], true, none)
    else
      match r.Tmpl.exec (loadContext td m) with
      | .error e => (acc, !r.Continue, some e)
      | .ok p =>
        if r.Continue = false then (acc ++ [p], true, none)
        else tpGo m td rest (acc ++ [p]) (!r.Continue)

/-- `templatedPaths`: walk the rules in configured order, starting with an
empty path list and `stop = false`. -/
def templatedPaths (m : Metric) (rules : List Rule) (td : TData) :
    List Str × Bool × Option Err :=
  tpGo m td rules [] false

/-! ## Default path encoding -/

/-- One label segment of the default path, per format: OpenMetrics
`name="value"` pairs joined by commas (no comma before the first), carbon-tags
`;name=value`, dotted legacy `.name.value`.  The label name is written as is;
only the value comes escaped. -/
def labelSeg (fmt : Format) (first : Bool) (k v : Str) : Str :=
  match fmt with
  | .carbonOpenMetrics => (if first then [] else [44]) ++ k ++ 61 :: 34 :: v ++ [34]
  | .carbonTags => 59 :: (k ++ 61 :: v)
  | .carbon => 46 :: (k ++ 46 :: v)

/-- The skip condition of `defaultPath`'s label loop: the reserved name label
and empty label names contribute nothing. -/
def skipKey (k : Str) : Bool := k == nameLabel || k == []

/-- The label loop of `defaultPath` over the sorted label names: the reserved
name label and empty label names are skipped (leaving `first` untouched);
every other label contributes its segment, with its value escaped. -/
def dpLoop (m : Metric) (fmt : Format) : List Str → Bool → Str
  | [], _ => []
  | k :: rest, first =>
    if skipKey k then dpLoop m fmt rest first
    else labelSeg fmt first k (Escape (mGet m k)) ++ dpLoop m fmt rest false

/-- `defaultPath`: the prefix, the escaped metric name, then the label buffer
built from the lexicographically sorted label names; for OpenMetrics the
non-empty label buffer is wrapped in braces. -/
def defaultPath (m : Metric) (fmt : Format) (pfx : Str) : Str :=
  let lbuffer := dpLoop m fmt (List.insertionSort strLe (mKeys m)) true
  let buffer := pfx ++ Escape (mGet m nameLabel)
  if lbuffer.length > 0 then
    if fmt = .carbonOpenMetrics then buffer ++ 123 :: lbuffer ++ [125]
    else buffer ++ lbuffer
  else buffer

/-! ## Path generation entry points -/

/-- `pathsFromMetric`: with the cache enabled, a hit under the metric's
fingerprint returns the stored list with no error; otherwise the rule walk
runs, the default path is appended unless the walk stopped, the result is
stored (when the cache is enabled) even when an error is returned, and the
path list is returned together with the walk's error. -/
def pathsFromMetric (m : Metric) (fmt : Format) (pfx : Str) (rules : List Rule)
    (td : TData) (st : CacheState) : (List Str × Option Err) × CacheState :=
  match (if st.enabled then cacheGet (fingerprint m) st else none) with
  | some cached => ((cached, none), st)
  | none =>
    let r := templatedPaths m rules td
    let paths := if r.2.1 = false then r.1 ++ [defaultPath m fmt pfx] else r.1
    let st' := if st.enabled then cacheSet (fingerprint m) paths st else st
    ((paths, r.2.2), st')

/-- A sample value (`model.SampleValue`, a float64), modelled by its IEEE
classification together with the text that `%f` would render for it; the
write path only branches on the classification. -/
structure FVal where
  isNaN : Bool
  isInf : Bool
  text : Str
  deriving DecidableEq, Repr

/-- A sample: a metric plus a value and the text that `%.0f` renders for its
timestamp in seconds. -/
structure Sample where
  metric : Metric
  value : FVal
  timeText : Str

/-- `Client.prepareDataPoint` (write.go), with the `ignoredSamples` counter as
explicit state: a NaN or infinite value yields the empty line and bumps the
counter; otherwise the line is `path SP value SP timestamp NL`. -/
def prepareDataPoint (path : Str) (s : Sample) (ignored : Nat) : Str × Nat :=
  if s.value.isNaN || s.value.isInf then ([], ignored + 1)
  else (path ++ 32 :: s.value.text ++ 32 :: s.timeText ++ [10], ignored)

/-- `ToDatapoints`: reject NaN and infinite values before any path work;
propagate a path-generation error; otherwise render one line per path. -/
def ToDatapoints (s : Sample) (fmt : Format) (pfx : Str) (rules : List Rule)
    (td : TData) (st : CacheState) : Except Err (List Str) × CacheState :=
  if s.value.isNaN || s.value.isInf then (.error .invalidValue, st)
  else
    match pathsFromMetric s.metric fmt pfx rules td st with
    | ((_, some e), st') => (.error e, st')
    | ((paths, none), st') =>
      (.ok (paths.map (fun p => p ++ 32 :: s.value.text ++ 32 :: s.timeText ++ [10])), st')

/-- The per-sample emission loop of `Client.Write`: every path goes through
`prepareDataPoint` and non-empty lines are appended to the buffer. -/
def emitPaths (s : Sample) : List Str → Str × Nat → Str × Nat
  | [], acc => acc
  | k :: rest, acc =>
    let d := prepareDataPoint k s acc.2
    emitPaths s rest (acc.1 ++ d.1, d.2)

/-- The line-assembly loop of `Client.Write` (write.go, TCP transport: a
single buffer): for each sample the paths are computed; a path-generation
error is logged and the loop continues, still emitting the returned paths. -/
def writeLines : List Sample → Format → Str → List Rule → TData →
    CacheState → Nat → Str × CacheState × Nat
  | [], _, _, _, _, st, ign => ([], st, ign)
  | s :: rest, fmt, pfx, rules, td, st, ign =>
    let pr := pathsFromMetric s.metric fmt pfx rules td st
    let em := emitPaths s pr.1.1 ([], ign)
    let tl := writeLines rest fmt pfx rules td pr.2 em.2
    (em.1 ++ tl.1, tl.2.1, tl.2.2)

/-! ## Path parsing (paths package, read side) -/

/-- The worker of `strings.Split` for a one-byte separator, carrying the
current segment reversed. -/
def splitGo (sep : Nat) : Str → Str → List Str
  | [], cur => [cur.reverse]
  | b :: rest, cur =>
    if b == sep then cur.reverse :: splitGo sep rest []
    else splitGo sep rest (b :: cur)

/-- `strings.Split` on a one-byte separator. -/
def splitOn (sep : Nat) (s : Str) : List Str := splitGo sep s []

/-- Leading part of `strings.Trim(s, ".")`. -/
def trimLead (s : Str) : Str := s.dropWhile (fun b => b == 46)

/-- Trailing part of `strings.Trim(s, ".")`. -/
def trimTrail (s : Str) : Str := (s.reverse.dropWhile (fun b => b == 46)).reverse

/-- `strings.Trim(s, ".")`. -/
def trimDots (s : Str) : Str := trimTrail (trimLead s)

/-- `strings.TrimPrefix`: drop the leading occurrence of `pre` when present,
otherwise return the string unchanged. -/
def trimPfx (s pre : Str) : Str := if pre.isPrefixOf s then s.drop pre.length else s

/-- The pair loop of `MetricLabelsFromPath`: consecutive nodes are read as
(label name, label value) pairs, both unescaped. -/
def pairUp : List Str → List (Str × Str)
  | k :: v :: rest => (Unescape k, Unescape v) :: pairUp rest
  | _ => []

/-- `MetricLabelsFromPath`: strip the prefix, trim separator bytes, split on
the separator; node 0 is the metric name (taken as is); an odd number of
remaining nodes is an error; otherwise the remaining nodes form the label
pairs. -/
def MetricLabelsFromPath (path pfx : Str) : Except Err (List (Str × Str)) :=
  let cleaned := trimDots (trimPfx path pfx)
  let nodes := splitOn 46 cleaned
  if (nodes.length - 1) % 2 ≠ 0 then .error .oddNodes
  else .ok ((nameLabel, nodes.headD []) :: pairUp (nodes.drop 1))

/-! ## Statement helpers

These definitions only serve to state the verified properties; each is
written from the wording of the property it formalises. -/

/-- Whether executing the template on this context succeeds. -/
def execOk (t : Template) (ctx : Ctx) : Bool :=
  match t.exec ctx with
  | .ok _ => true
  | .error _ => false

/-- Whether the rule walk passes through this rule without stopping: the rule
either does not match, or it matches, continues, and its template renders. -/
def passes (m : Metric) (td : TData) (r : Rule) : Bool :=
  !matchRule m r.Match r.MatchRE || (r.Continue && execOk r.Tmpl (loadContext td m))

/-- The rendered template outputs of the matching rules, in configuration
order; `none` when some matching rule has no template or fails to render. -/
def renderAll (m : Metric) (td : TData) : List Rule → Option (List Str)
  | [] => some []
  | r :: rest =>
    if matchRule m r.Match r.MatchRE = false then renderAll m td rest
    else
      match r.Tmpl.exec (loadContext td m) with
      | .error _ => none
      | .ok p => (renderAll m td rest).map (fun l => p :: l)

/-- The dotted-legacy default path as the spec words it (4.4): the prefix, the
escaped name, then for each non-name label in lexicographic order of label
name a separator, the escaped label name, a separator, and the escaped label
value.  Compare with `defaultPath`, which writes the label name as is. -/
def specDefaultPathDotted (m : Metric) (pfx : Str) : Str :=
  pfx ++ Escape (mGet m nameLabel) ++
    ((List.insertionSort strLe (mKeys m)).filter
      (fun k => !skipKey k)).flatMap
      (fun k => 46 :: (Escape k ++ 46 :: Escape (mGet m k)))

/-- A byte the codec passes through unchanged. -/
def plainB (b : Nat) : Bool := escapeByte b == [b]

/-- A byte string the codec passes through unchanged, byte for byte. -/
def plainS (s : Str) : Bool := s.all plainB

/-- Dot-joining of path segments (the inverse view of `splitOn 46`). -/
def joinDots : List Str → Str
  | [] => []
  | [s] => s
  | s :: rest => s ++ 46 :: joinDots rest

/-! ## Concrete fixtures used by the witnesses -/

/-- A disabled paths cache. -/
def stD : CacheState := ⟨false, []⟩

/-- The bytes of the label name `owner`. -/
def ownerL : Str := [111, 119, 110, 101, 114]

/-- A small metric: name `nm`, label `owner=tX`. -/
def mW : Metric := [(nameLabel, [110, 109]), (ownerL, [116, 88])]

/-- A rule matching `owner=tX` exactly, rendering the constant `t1`,
with `continue: true`. -/
def rW1 : Rule := ⟨.set (fun _ => .ok [116, 49]), [(ownerL, [116, 88])], [], true⟩

/-- A rule with a regex entry on `owner` (anything non-empty), rendering
`t2.` followed by the owner label (the shape of `t2.{{.labels.owner}}`),
with `continue: true`. -/
def rW2 : Rule :=
  ⟨.set (fun c => .ok (116 :: 50 :: 46 :: mGet c.labels ownerL)),
   [], [(ownerL, fun v => !(v == []))], true⟩

/-- A catch-all silencing rule: no template, `continue: false`. -/
def rSil : Rule := ⟨.unset, [], [], false⟩

/-- A catch-all rule whose template fails to execute, `continue: true`. -/
def rErr : Rule := ⟨.set (fun _ => .error (.tmplErr 7)), [], [], true⟩

/-- A finite-valued sample over `mW` (value text `1`, timestamp text `0`). -/
def sW : Sample := ⟨mW, ⟨false, false, [49]⟩, [48]⟩

/-- A NaN-valued sample over `mW`. -/
def sNaN : Sample := ⟨mW, ⟨true, false, []⟩, [48]⟩

/-- An enabled cache holding a stale entry `x` for `mW`'s fingerprint. -/
def stW : CacheState := ⟨true, [(fingerprint mW, [[120]])]⟩

/-- An enabled, empty cache. -/
def stM : CacheState := ⟨true, []⟩

/-- The metric `mW` with its two entries listed in the opposite order (the
same label set under another container order). -/
def mWrev : Metric := [(ownerL, [116, 88]), (nameLabel, [110, 109])]

/-! ## Sanity checks against the repository's tests -/

/-- TestEscape, first vector: `abzABZ019(){},'"\` escapes to
`abzABZ019\(\)\{\}\,\'\"\\`. -/
example :
    Escape [97, 98, 122, 65, 66, 90, 48, 49, 57, 40, 41, 123, 125, 44, 39, 34, 92] =
      [97, 98, 122, 65, 66, 90, 48, 49, 57, 92, 40, 92, 41, 92, 123, 92, 125,
       92, 44, 92, 39, 92, 34, 92, 92] := by decide

/-- TestEscape, second vector: the UTF-8 bytes of `é/|_;:%.` escape to
`%C3%A9%2F|_;:%25%2E`. -/
example :
    Escape [195, 169, 47, 124, 95, 59, 58, 37, 46] =
      [37, 67, 51, 37, 65, 57, 37, 50, 70, 124, 95, 59, 58, 37, 50, 53, 37, 50, 69] := by
  decide

/-- TestUnescape, both vectors, composed with the matching Escape vectors. -/
example :
    Unescape [97, 98, 122, 65, 66, 90, 48, 49, 57, 92, 40, 92, 41, 92, 123, 92, 125,
      92, 44, 92, 39, 92, 34, 92, 92] =
      [97, 98, 122, 65, 66, 90, 48, 49, 57, 40, 41, 123, 125, 44, 39, 34, 92] ∧
    Unescape [37, 67, 51, 37, 65, 57, 37, 50, 70, 124, 95, 59, 58, 37, 50, 53, 37, 50, 69] =
      [195, 169, 47, 124, 95, 59, 58, 37, 46] := by decide

/-- Sanity check mirroring TestDefaultPathsFromMetric on a reduced metric:
the metric `test:metric{owner="team-X"}` with prefix `prefix.` yields the
single default dotted path `prefix.test:metric.owner.team-X`. -/
example :
    pathsFromMetric
      [(nameLabel, [116, 101, 115, 116, 58, 109, 101, 116, 114, 105, 99]),
       (ownerL, [116, 101, 97, 109, 45, 88])]
      .carbon [112, 114, 101, 102, 105, 120, 46] [] [] stD =
    (([[112, 114, 101, 102, 105, 120, 46, 116, 101, 115, 116, 58, 109, 101, 116,
        114, 105, 99, 46, 111, 119, 110, 101, 114, 46, 116, 101, 97, 109, 45, 88]],
      none), stD) := by decide

/-- Sanity check mirroring TestMetricLabelsFromPath: parsing
`prometheus-prefix.test.owner.team-X` against prefix `prometheus-prefix`
recovers the name `test` and the label `owner=team-X`. -/
example :
    MetricLabelsFromPath
      [112, 114, 111, 109, 101, 116, 104, 101, 117, 115, 45, 112, 114, 101, 102,
       105, 120, 46, 116, 101, 115, 116, 46, 111, 119, 110, 101, 114, 46, 116,
       101, 97, 109, 45, 88]
      [112, 114, 111, 109, 101, 116, 104, 101, 117, 115, 45, 112, 114, 101, 102,
       105, 120] =
    .ok [(nameLabel, [116, 101, 115, 116]),
         (ownerL, [116, 101, 97, 109, 45, 88])] := rfl

/-! ## Lemmas about the rule walk -/

theorem execOk_iff (t : Template) (ctx : Ctx) :
    execOk t ctx = true ↔ ∃ p, t.exec ctx = .ok p := by
  unfold execOk
  cases h : t.exec ctx <;> simp

theorem tpGo_passes (m : Metric) (td : TData) (pre rest : List Rule) (acc : List Str)
    (h : pre.all (passes m td) = true) :
    ∃ acc', tpGo m td (pre ++ rest) acc false = tpGo m td rest acc' false := by
  induction pre generalizing acc with
  | nil => exact ⟨acc, rfl⟩
  | cons r pre ih =>
    rw [List.all_cons, Bool.and_eq_true] at h
    obtain ⟨hr, hrest⟩ := h
    rw [List.cons_append]
    cases hm : matchRule m r.Match r.MatchRE with
    | false =>
      simp only [tpGo, hm]
      simpa using ih _ hrest
    | true =>
      unfold passes at hr
      rw [hm] at hr
      simp only [Bool.not_true, Bool.false_or, Bool.and_eq_true] at hr
      obtain ⟨hc, he⟩ := hr
      obtain ⟨p, hp⟩ := (execOk_iff _ _).mp he
      simp only [tpGo, hm, hc, hp]
      simpa using ih _ hrest

theorem tpGo_all_continue (m : Metric) (td : TData) (rules : List Rule)
    (acc outs : List Str)
    (hc : rules.all (fun r => !matchRule m r.Match r.MatchRE || r.Continue) = true)
    (hr : renderAll m td rules = some outs) :
    tpGo m td rules acc false = (acc ++ outs, false, none) := by
  induction rules generalizing acc outs with
  | nil =>
    simp only [renderAll, Option.some.injEq] at hr
    subst hr
    simp [tpGo]
  | cons r rest ih =>
    rw [List.all_cons, Bool.and_eq_true] at hc
    obtain ⟨h1, h2⟩ := hc
    by_cases hm : matchRule m r.Match r.MatchRE = false
    · unfold renderAll at hr
      rw [if_pos hm] at hr
      simp only [tpGo, if_pos hm]
      exact ih _ _ h2 hr
    · have hm' : matchRule m r.Match r.MatchRE = true := by
        cases hq : matchRule m r.Match r.MatchRE
        · exact absurd hq hm
        · rfl
      rw [hm'] at h1
      simp only [Bool.not_true, Bool.false_or] at h1
      unfold renderAll at hr
      rw [if_neg hm] at hr
      split at hr
      · exact absurd hr (by simp)
      · rename _ = Except.ok _ => heq
        rename_i p
        rw [Option.map_eq_some'] at hr
        obtain ⟨l, hl, hout⟩ := hr
        subst hout
        have hrec := ih (acc ++ [p]) l h2 hl
        simp [tpGo, if_neg hm, h1, heq, hrec]

/-- With the cache disabled, `pathsFromMetric` is the rule walk plus the
conditional default path, and the state is untouched. -/
theorem pathsFromMetric_disabled (m : Metric) (fmt : Format) (pfx : Str)
    (rules : List Rule) (td : TData) (st : CacheState) (hst : st.enabled = false) :
    pathsFromMetric m fmt pfx rules td st =
      ((if (templatedPaths m rules td).2.1 = false
          then (templatedPaths m rules td).1 ++ [defaultPath m fmt pfx]
          else (templatedPaths m rules td).1,
        (templatedPaths m rules td).2.2), st) := by
  unfold pathsFromMetric
  simp [hst]

/-- With the cache enabled, a hit is returned as is, with no error and no
state change. -/
theorem pathsFromMetric_hit (m : Metric) (fmt : Format) (pfx : Str)
    (rules : List Rule) (td : TData) (st : CacheState) (ps : List Str)
    (he : st.enabled = true) (hps : cacheGet (fingerprint m) st = some ps) :
    pathsFromMetric m fmt pfx rules td st = ((ps, none), st) := by
  unfold pathsFromMetric
  simp [he, hps]

/-- With the cache enabled, a miss computes the paths and stores them under
the fingerprint. -/
theorem pathsFromMetric_miss (m : Metric) (fmt : Format) (pfx : Str)
    (rules : List Rule) (td : TData) (st : CacheState)
    (he : st.enabled = true) (hmiss : cacheGet (fingerprint m) st = none) :
    pathsFromMetric m fmt pfx rules td st =
      ((if (templatedPaths m rules td).2.1 = false
          then (templatedPaths m rules td).1 ++ [defaultPath m fmt pfx]
          else (templatedPaths m rules td).1,
        (templatedPaths m rules td).2.2),
       cacheSet (fingerprint m)
         (if (templatedPaths m rules td).2.1 = false
            then (templatedPaths m rules td).1 ++ [defaultPath m fmt pfx]
            else (templatedPaths m rules td).1) st) := by
  unfold pathsFromMetric
  simp [he, hmiss]

/-! ## C1 -/

/-- C1: when every matching rule continues and its template renders, path
generation (cache disabled) returns the rendered path of each matching rule
in configuration order, followed by the default path as the last element. -/
theorem c1_multi_rule_accumulation (m : Metric) (fmt : Format) (pfx : Str)
    (rules : List Rule) (td : TData) (outs : List Str) (st : CacheState)
    (hst : st.enabled = false)
    (hc : rules.all (fun r => !matchRule m r.Match r.MatchRE || r.Continue) = true)
    (hr : renderAll m td rules = some outs) :
    pathsFromMetric m fmt pfx rules td st = ((outs ++ [defaultPath m fmt pfx], none), st) := by
  have h : templatedPaths m rules td = (outs, false, none) := by
    unfold templatedPaths
    rw [tpGo_all_continue m td rules [] outs hc hr]
    simp
  rw [pathsFromMetric_disabled m fmt pfx rules td st hst, h]
  simp

/-- Witness for C1: two rules (one exact match, one regex match) with
`continue: true` on a matching metric yield their two rendered paths plus the
default path, three paths in total, with the default last. -/
theorem c1_multi_rule_accumulation_witness :
    stD.enabled = false ∧
    ([rW1, rW2].all (fun r => !matchRule mW r.Match r.MatchRE || r.Continue)) = true ∧
    renderAll mW [] [rW1, rW2] = some [[116, 49], [116, 50, 46, 116, 88]] ∧
    pathsFromMetric mW .carbon [112, 46] [rW1, rW2] [] stD =
      (([[116, 49], [116, 50, 46, 116, 88]] ++ [defaultPath mW .carbon [112, 46]], none), stD) ∧
    ([[116, 49], [116, 50, 46, 116, 88]] ++ [defaultPath mW .carbon [112, 46]]).length = 3 :=
  ⟨rfl, by decide, rfl,
   c1_multi_rule_accumulation mW .carbon [112, 46] [rW1, rW2] []
     [[116, 49], [116, 50, 46, 116, 88]] stD rfl (by decide) rfl,
   by decide⟩

/-! ## C2 -/

/-- C2: when the rule walk reaches (through non-matching or continuing,
successfully rendered rules) a matching rule with `continue: false` and no
template, path generation returns the empty path list and no error: templated
output and the default path are both suppressed. -/
theorem c2_silencing_rule (m : Metric) (fmt : Format) (pfx : Str)
    (pre post : List Rule) (r : Rule) (td : TData) (st : CacheState)
    (hst : st.enabled = false)
    (hpre : pre.all (passes m td) = true)
    (hm : matchRule m r.Match r.MatchRE = true)
    (hc : r.Continue = false)
    (ht : r.Tmpl.isUnset = true) :
    pathsFromMetric m fmt pfx (pre ++ r :: post) td st = (([], none), st) := by
  obtain ⟨acc', h⟩ := tpGo_passes m td pre (r :: post) [] hpre
  have h2 : tpGo m td (r :: post) acc' false = ([], true, none) := by
    simp [tpGo, hm, hc, ht]
  have h3 : templatedPaths m (pre ++ r :: post) td = ([], true, none) := by
    unfold templatedPaths
    rw [h, h2]
  rw [pathsFromMetric_disabled m fmt pfx (pre ++ r :: post) td st hst, h3]
  simp

/-- Witness for C2: a matching, continuing, rendering rule followed by a
matching silencing rule (and a further rule that is never reached) produces no
paths and no error. -/
theorem c2_silencing_rule_witness :
    stD.enabled = false ∧
    [rW1].all (passes mW []) = true ∧
    matchRule mW rSil.Match rSil.MatchRE = true ∧
    rSil.Continue = false ∧
    rSil.Tmpl.isUnset = true ∧
    pathsFromMetric mW .carbon [112, 46] ([rW1] ++ rSil :: [rErr]) [] stD = (([], none), stD) :=
  ⟨rfl, by decide, by decide, rfl, rfl,
   c2_silencing_rule mW .carbon [112, 46] [rW1] [rErr] rSil [] stD rfl
     (by decide) (by decide) rfl rfl⟩

/-! ## C3 -/

/-- C3: the round-trip claim fails on the code: escaping the two-backslash
string and unescaping the result yields a single backslash, not the original
(the backslash scan of `Unescape` drops every backslash standing before a
significant byte, over-consuming runs of escapes).  A lone backslash before a
non-significant byte does survive, as the claim's particular case states. -/
theorem c3_roundtrip_fails_on_backslash_run :
    Unescape (Escape [92, 92]) = [92] ∧
    Unescape (Escape [92, 92]) ≠ [92, 92] ∧
    Unescape (Escape [92, 97]) = [92, 97] := by decide

/-! ## C7 -/

/-- C7: the rule matcher returns true exactly when every exact entry equals
the metric's value for that label (an absent label reading as the empty
string) and every regex entry matches the possibly absent value of its label;
empty exact and regex maps match every metric. -/
theorem c7_matcher_iff (m : Metric) (mtch : List (Str × Str)) (mre : List (Str × Regexp)) :
    (matchRule m mtch mre = true ↔
      ((∀ p ∈ mtch, mGet m p.1 = p.2) ∧ ∀ q ∈ mre, q.2 (mGet m q.1) = true)) ∧
    matchRule m [] [] = true := by
  refine ⟨?_, rfl⟩
  simp [matchRule, List.all_eq_true]

/-! ## C8 -/

/-- C8: a path whose node sequence after the metric-name node has odd length
is rejected by the parser with an error; no label set is returned. -/
theorem c8_odd_node_count_is_error (path pfx : Str)
    (h : ((splitOn 46 (trimDots (trimPfx path pfx))).length - 1) % 2 = 1) :
    MetricLabelsFromPath path pfx = .error .oddNodes := by
  have h' : ¬((splitOn 46 (trimDots (trimPfx path pfx))).length - 1) % 2 = 0 := by omega
  simp [MetricLabelsFromPath, h']

/-- Witness for C8: the path `p.n.a` under prefix `p` leaves one node after
the name node, so parsing errors out. -/
theorem c8_odd_node_count_is_error_witness :
    ((splitOn 46 (trimDots (trimPfx [112, 46, 110, 46, 97] [112]))).length - 1) % 2 = 1 ∧
    MetricLabelsFromPath [112, 46, 110, 46, 97] [112] = .error .oddNodes :=
  ⟨by decide, c8_odd_node_count_is_error [112, 46, 110, 46, 97] [112] (by decide)⟩

/-! ## C9 -/

/-- C9: a NaN or infinite sample produces no output line: `ToDatapoints`
returns an error (before touching paths or the cache) and the line preparer
returns the empty string while bumping the ignored-samples counter. -/
theorem c9_nan_inf_dropped (s : Sample) (fmt : Format) (pfx : Str) (rules : List Rule)
    (td : TData) (st : CacheState) (p : Str) (c : Nat)
    (h : s.value.isNaN = true ∨ s.value.isInf = true) :
    ToDatapoints s fmt pfx rules td st = (.error .invalidValue, st) ∧
    prepareDataPoint p s c = ([], c + 1) := by
  have hb : (s.value.isNaN || s.value.isInf) = true := by
    rcases h with h | h <;> simp [h]
  exact ⟨by simp [ToDatapoints, hb], by simp [prepareDataPoint, hb]⟩

/-- Witness for C9 on a concrete NaN sample. -/
theorem c9_nan_inf_dropped_witness :
    (sNaN.value.isNaN = true ∨ sNaN.value.isInf = true) ∧
    ToDatapoints sNaN .carbon [] [rW1] [] stD = (.error .invalidValue, stD) ∧
    prepareDataPoint [112] sNaN 5 = ([], 6) :=
  ⟨Or.inl rfl,
   (c9_nan_inf_dropped sNaN .carbon [] [rW1] [] stD [112] 5 (Or.inl rfl)).1,
   (c9_nan_inf_dropped sNaN .carbon [] [rW1] [] stD [112] 5 (Or.inl rfl)).2⟩

/-! ## C10 -/

theorem lookup_setEntry_self (k : Metric) (v : List Str) (e : List (Metric × List Str)) :
    (setEntry k v e).lookup k = some v := by
  induction e with
  | nil => simp [setEntry, List.lookup]
  | cons p rest ih =>
    obtain ⟨k', v'⟩ := p
    by_cases h : k' = k
    · subst h
      simp [setEntry, List.lookup]
    · have hb : (k' == k) = false := by simpa using h
      have hb' : (k == k') = false := by simpa using Ne.symm h
      simp [setEntry, hb, List.lookup, hb', ih]

/-- C10: with the cache enabled, lookup and insertion are keyed by the
fingerprint alone: a present entry is returned with no error whatever the
format, prefix, rules and template data are; and after any call the cache
holds, under the metric's fingerprint, exactly the path list that call
returned, whether or not the call also returned an error. -/
theorem c10_cache_by_fingerprint (m : Metric) (st : CacheState)
    (he : st.enabled = true) :
    (∀ ps, cacheGet (fingerprint m) st = some ps →
      ∀ (fmt : Format) (pfx : Str) (rules : List Rule) (td : TData),
        pathsFromMetric m fmt pfx rules td st = ((ps, none), st)) ∧
    (∀ (fmt : Format) (pfx : Str) (rules : List Rule) (td : TData),
      cacheGet (fingerprint m) (pathsFromMetric m fmt pfx rules td st).2 =
        some (pathsFromMetric m fmt pfx rules td st).1.1) := by
  constructor
  · intro ps hps fmt pfx rules td
    exact pathsFromMetric_hit m fmt pfx rules td st ps he hps
  · intro fmt pfx rules td
    cases hc : cacheGet (fingerprint m) st with
    | some cached =>
      rw [pathsFromMetric_hit m fmt pfx rules td st cached he hc]
      exact hc
    | none =>
      rw [pathsFromMetric_miss m fmt pfx rules td st he hc]
      simp [cacheGet, cacheSet, lookup_setEntry_self]

/-! ## Order lemmas for the label-name sort -/

theorem strLeB_total (a b : Str) : strLeB a b = true ∨ strLeB b a = true := by
  induction a generalizing b with
  | nil => left; rfl
  | cons x as ih =>
    cases b with
    | nil => right; rfl
    | cons y bs =>
      rcases Nat.lt_trichotomy x y with h | h | h
      · left; simp [strLeB, h]
      · subst h
        rcases ih bs with h' | h'
        · left; simp [strLeB, Nat.lt_irrefl, h']
        · right; simp [strLeB, Nat.lt_irrefl, h']
      · right; simp [strLeB, h]

theorem strLeB_trans (a b c : Str) (h1 : strLeB a b = true) (h2 : strLeB b c = true) :
    strLeB a c = true := by
  induction a generalizing b c with
  | nil => rfl
  | cons x as ih =>
    cases b with
    | nil => simp [strLeB] at h1
    | cons y bs =>
      cases c with
      | nil => simp [strLeB] at h2
      | cons z cs =>
        simp only [strLeB] at h1 h2 ⊢
        rcases Nat.lt_trichotomy x y with hxy | hxy | hxy
        · rcases Nat.lt_trichotomy y z with hyz | hyz | hyz
          · rw [if_pos (by omega)]
          · subst hyz
            rw [if_pos hxy]
          · rw [if_neg (by omega), if_pos hyz] at h2
            exact absurd h2 (by simp)
        · subst hxy
          rw [if_neg (by omega), if_neg (by omega)] at h1
          rcases Nat.lt_trichotomy x z with hxz | hxz | hxz
          · rw [if_pos hxz]
          · subst hxz
            rw [if_neg (by omega), if_neg (by omega)] at h2 ⊢
            exact ih bs cs h1 h2
          · rw [if_neg (by omega), if_pos hxz] at h2
            exact absurd h2 (by simp)
        · rw [if_neg (by omega), if_pos hxy] at h1
          exact absurd h1 (by simp)

theorem strLeB_antisymm (a b : Str) (h1 : strLeB a b = true) (h2 : strLeB b a = true) :
    a = b := by
  induction a generalizing b with
  | nil =>
    cases b with
    | nil => rfl
    | cons y bs => simp [strLeB] at h2
  | cons x as ih =>
    cases b with
    | nil => simp [strLeB] at h1
    | cons y bs =>
      simp only [strLeB] at h1 h2
      rcases Nat.lt_trichotomy x y with hxy | hxy | hxy
      · rw [if_neg (by omega), if_pos hxy] at h2
        exact absurd h2 (by simp)
      · subst hxy
        rw [if_neg (by omega), if_neg (by omega)] at h1 h2
        rw [ih bs h1 h2]
      · rw [if_neg (by omega), if_pos hxy] at h1
        exact absurd h1 (by simp)

instance : IsTotal Str strLe := ⟨fun a b => strLeB_total a b⟩

instance : IsTrans Str strLe := ⟨fun a b c => strLeB_trans a b c⟩

instance : IsAntisymm Str strLe := ⟨fun a b => strLeB_antisymm a b⟩

/-- Sorting is insensitive to the container order of the input: permuted
inputs sort to the same list. -/
theorem insertionSort_perm_eq {l l' : List Str} (h : l.Perm l') :
    List.insertionSort strLe l = List.insertionSort strLe l' :=
  List.eq_of_perm_of_sorted
    ((List.perm_insertionSort strLe l).trans (h.trans (List.perm_insertionSort strLe l').symm))
    (List.sorted_insertionSort strLe l) (List.sorted_insertionSort strLe l')

/-! ## Lookup lemmas for metrics as association lists -/

theorem lookup_of_mem_nodup {m : Metric} (hnd : (mKeys m).Nodup) {p : Str × Str}
    (hp : p ∈ m) : m.lookup p.1 = some p.2 := by
  induction m with
  | nil => cases hp
  | cons q rest ih =>
    obtain ⟨qk, qv⟩ := q
    simp only [mKeys, List.map_cons, List.nodup_cons] at hnd
    rcases List.mem_cons.mp hp with h | h
    · subst h
      simp [List.lookup]
    · have hne : p.1 ≠ qk := by
        intro e
        exact hnd.1 (e ▸ List.mem_map_of_mem _ h)
      have hb : (p.1 == qk) = false := by simpa using hne
      simpa [List.lookup, hb] using ih hnd.2 h

theorem lookup_eq_none_of_not_mem {m : Metric} {k : Str} (h : k ∉ mKeys m) :
    m.lookup k = none := by
  induction m with
  | nil => rfl
  | cons q rest ih =>
    obtain ⟨qk, qv⟩ := q
    simp only [mKeys, List.map_cons, List.mem_cons, not_or] at h
    have hb : (k == qk) = false := by simpa using h.1
    simpa [List.lookup, hb] using ih h.2

theorem mKeys_perm {m m' : Metric} (h : m.Perm m') : (mKeys m).Perm (mKeys m') := by
  unfold mKeys
  exact h.map (fun p => p.1)

theorem mGet_congr_perm {m m' : Metric} (h : m.Perm m') (hnd : (mKeys m).Nodup)
    (k : Str) : mGet m k = mGet m' k := by
  by_cases hk : k ∈ mKeys m
  · simp only [mKeys] at hk
    obtain ⟨p, hp, hpk⟩ := List.mem_map.mp hk
    subst hpk
    have hkeys : (mKeys m).Perm (mKeys m') := mKeys_perm h
    have hnd' : (mKeys m').Nodup := hkeys.nodup_iff.mp hnd
    have h1 := lookup_of_mem_nodup hnd hp
    have h2 := lookup_of_mem_nodup hnd' (h.mem_iff.mp hp)
    simp [mGet, h1, h2]
  · have hkeys : (mKeys m).Perm (mKeys m') := mKeys_perm h
    have hk' : k ∉ mKeys m' := fun c => hk (hkeys.mem_iff.mpr c)
    simp [mGet, lookup_eq_none_of_not_mem hk, lookup_eq_none_of_not_mem hk']

/-! ## The dotted default path in closed form -/

theorem dpLoop_carbon (m : Metric) (ks : List Str) (first : Bool) :
    dpLoop m .carbon ks first =
      (ks.filter (fun k => !skipKey k)).flatMap
        (fun k => 46 :: (k ++ 46 :: Escape (mGet m k))) := by
  induction ks generalizing first with
  | nil => rfl
  | cons k rest ih =>
    by_cases hk : skipKey k = true
    · simp [dpLoop, hk, List.filter_cons, ih]
    · simp only [Bool.not_eq_true] at hk
      simp [dpLoop, hk, List.filter_cons, ih, labelSeg]

theorem defaultPath_carbon (m : Metric) (pfx : Str) :
    defaultPath m .carbon pfx =
      pfx ++ Escape (mGet m nameLabel) ++
        ((List.insertionSort strLe (mKeys m)).filter
          (fun k => !skipKey k)).flatMap
          (fun k => 46 :: (k ++ 46 :: Escape (mGet m k))) := by
  unfold defaultPath
  rw [dpLoop_carbon]
  by_cases h :
      (((List.insertionSort strLe (mKeys m)).filter
        (fun k => !skipKey k)).flatMap
        (fun k => 46 :: (k ++ 46 :: Escape (mGet m k)))).length > 0
  · rw [if_pos h, if_neg (by simp)]
  · rw [if_neg h]
    have : ((List.insertionSort strLe (mKeys m)).filter
        (fun k => !skipKey k)).flatMap
        (fun k => 46 :: (k ++ 46 :: Escape (mGet m k))) = [] := by
      rcases hq : ((List.insertionSort strLe (mKeys m)).filter
        (fun k => !skipKey k)).flatMap
        (fun k => 46 :: (k ++ 46 :: Escape (mGet m k))) with _ | ⟨b, bs⟩
      · rfl
      · rw [hq] at h
        simp at h
    rw [this]
    simp

theorem dpLoop_congr {m m' : Metric} (fmt : Format)
    (hg : ∀ k, mGet m k = mGet m' k) (ks : List Str) (first : Bool) :
    dpLoop m fmt ks first = dpLoop m' fmt ks first := by
  induction ks generalizing first with
  | nil => rfl
  | cons k rest ih =>
    by_cases hk : skipKey k = true
    · simp [dpLoop, hk, ih]
    · simp only [Bool.not_eq_true] at hk
      simp [dpLoop, hk, ih, hg]

theorem defaultPath_perm {m m' : Metric} (h : m.Perm m') (hnd : (mKeys m).Nodup)
    (fmt : Format) (pfx : Str) : defaultPath m fmt pfx = defaultPath m' fmt pfx := by
  have hkeys : (mKeys m).Perm (mKeys m') := mKeys_perm h
  unfold defaultPath
  rw [insertionSort_perm_eq hkeys,
    dpLoop_congr fmt (mGet_congr_perm h hnd), mGet_congr_perm h hnd nameLabel]

/-! ## C5 -/

/-- C5 (amended): with no rules the dotted-legacy generation returns exactly
one path, `pfx ++ escape(name) ++ (".<label>.<escaped value>" per non-name,
non-empty label name in sorted order)` — the label name written as is, only
the value escaped — the emitted label order is sorted, and any permutation of
the metric's entries (any map iteration order) yields the identical output. -/
theorem c5_default_path_formula (m m' : Metric) (pfx : Str) (td : TData)
    (st : CacheState) (hst : st.enabled = false) (hnd : (mKeys m).Nodup)
    (hperm : m.Perm m') :
    pathsFromMetric m .carbon pfx [] td st =
      (([pfx ++ Escape (mGet m nameLabel) ++
          ((List.insertionSort strLe (mKeys m)).filter
            (fun k => !skipKey k)).flatMap
            (fun k => 46 :: (k ++ 46 :: Escape (mGet m k)))], none), st) ∧
    List.Sorted strLe ((List.insertionSort strLe (mKeys m)).filter
      (fun k => !skipKey k)) ∧
    pathsFromMetric m' .carbon pfx [] td st = pathsFromMetric m .carbon pfx [] td st := by
  refine ⟨?_, ?_, ?_⟩
  · rw [pathsFromMetric_disabled m .carbon pfx [] td st hst]
    simp [templatedPaths, tpGo, defaultPath_carbon]
  · exact (List.sorted_insertionSort strLe (mKeys m)).filter _
  · have hd := defaultPath_perm hperm hnd .carbon pfx
    rw [pathsFromMetric_disabled m' .carbon pfx [] td st hst,
      pathsFromMetric_disabled m .carbon pfx [] td st hst]
    simp [templatedPaths, tpGo, hd]

/-- Witness for the amended C5 on `mW` and its reversed container order. -/
theorem c5_default_path_formula_witness :
    stD.enabled = false ∧ (mKeys mW).Nodup ∧ mW.Perm mWrev ∧
    (pathsFromMetric mW .carbon [112, 46] [] [] stD =
      (([[112, 46] ++ Escape (mGet mW nameLabel) ++
          ((List.insertionSort strLe (mKeys mW)).filter
            (fun k => !skipKey k)).flatMap
            (fun k => 46 :: (k ++ 46 :: Escape (mGet mW k)))], none), stD) ∧
     List.Sorted strLe ((List.insertionSort strLe (mKeys mW)).filter
       (fun k => !skipKey k)) ∧
     pathsFromMetric mWrev .carbon [112, 46] [] [] stD =
       pathsFromMetric mW .carbon [112, 46] [] [] stD) :=
  ⟨rfl, by decide, by decide,
   c5_default_path_formula mW mWrev [112, 46] [] stD rfl (by decide) (by decide)⟩

/-- C5 counterexample to the claim as stated: the generated dotted default
path writes the label name unescaped, so for a label named `(` it differs
from the spec's formula with the escaped label name. -/
theorem c5_label_name_not_escaped :
    defaultPath [(nameLabel, [110]), ([40], [118])] .carbon [] ≠
      specDefaultPathDotted [(nameLabel, [110]), ([40], [118])] [] ∧
    pathsFromMetric [(nameLabel, [110]), ([40], [118])] .carbon [] [] [] stD =
      (([defaultPath [(nameLabel, [110]), ([40], [118])] .carbon []], none), stD) := by
  decide

/-! ## C6 -/

/-- C6 (amended): a template-execution error in a matching rule aborts the
walk (the rules after it are irrelevant), propagates through `pathsFromMetric`
and makes `ToDatapoints` fail for the sample with that error and no
datapoints. -/
theorem c6_template_error_propagates (s : Sample) (fmt : Format) (pfx : Str)
    (pre post : List Rule) (r : Rule) (td : TData) (st : CacheState)
    (f : Ctx → Except Err Str) (e : Err)
    (hv : s.value.isNaN = false) (hv2 : s.value.isInf = false)
    (hst : st.enabled = false)
    (hpre : pre.all (passes s.metric td) = true)
    (hm : matchRule s.metric r.Match r.MatchRE = true)
    (ht : r.Tmpl = .set f)
    (he : f (loadContext td s.metric) = .error e) :
    ToDatapoints s fmt pfx (pre ++ r :: post) td st = (.error e, st) := by
  obtain ⟨acc', h⟩ := tpGo_passes s.metric td pre (r :: post) [] hpre
  have h2 : tpGo s.metric td (r :: post) acc' false = (acc', !r.Continue, some e) := by
    simp [tpGo, hm, ht, Template.isUnset, Template.exec, he]
  have h3 : templatedPaths s.metric (pre ++ r :: post) td = (acc', !r.Continue, some e) := by
    unfold templatedPaths
    rw [h, h2]
  have h4 := pathsFromMetric_disabled s.metric fmt pfx (pre ++ r :: post) td st hst
  rw [h3] at h4
  have hb : (s.value.isNaN || s.value.isInf) = false := by simp [hv, hv2]
  unfold ToDatapoints
  rw [hb]
  simp only [Bool.false_eq_true, if_false]
  rw [h4]

/-- Witness for the amended C6: a matching, continuing rule whose template
errors, placed after a rendering rule and before a never-reached rule, makes
`ToDatapoints` return exactly that error. -/
theorem c6_template_error_propagates_witness :
    sW.value.isNaN = false ∧ sW.value.isInf = false ∧ stD.enabled = false ∧
    [rW1].all (passes sW.metric []) = true ∧
    matchRule sW.metric rErr.Match rErr.MatchRE = true ∧
    ToDatapoints sW .carbon [] ([rW1] ++ rErr :: [rW2]) [] stD =
      (.error (.tmplErr 7), stD) :=
  ⟨rfl, rfl, rfl, by decide, by decide,
   c6_template_error_propagates sW .carbon [] [rW1] [rW2] rErr [] stD
     (fun _ => .error (.tmplErr 7)) (.tmplErr 7) rfl rfl rfl (by decide) (by decide)
     rfl rfl⟩

/-- C6 counterexample to the claim as stated: for a sample whose rule walk
hits a template error (after one rendered path, with `continue: true`), the
write loop's line assembly still emits lines for the returned partial path
list — it logs the error but does not skip the sample. -/
theorem c6_write_emits_despite_error :
    (pathsFromMetric sW.metric .carbon [] [rW1, rErr] [] stD).1.2 =
      some (.tmplErr 7) ∧
    (writeLines [sW] .carbon [] [rW1, rErr] [] stD 0).1 ≠ [] := by decide

/-- Witness for C10: a stale entry is served regardless of the rules (here a
silencing rule that would return no paths), and a call whose template errors
still stores its computed list under the fingerprint. -/
theorem c10_cache_by_fingerprint_witness :
    stW.enabled = true ∧
    cacheGet (fingerprint mW) stW = some [[120]] ∧
    pathsFromMetric mW .carbonTags [99] [rSil] [] stW = (([[120]], none), stW) ∧
    stM.enabled = true ∧
    (pathsFromMetric mW .carbon [] [rErr] [] stM).1.2 = some (.tmplErr 7) ∧
    cacheGet (fingerprint mW) (pathsFromMetric mW .carbon [] [rErr] [] stM).2 =
      some (pathsFromMetric mW .carbon [] [rErr] [] stM).1.1 :=
  ⟨rfl, by decide,
   (c10_cache_by_fingerprint mW stW rfl).1 [[120]] (by decide) .carbonTags [99] [rSil] [],
   rfl, by decide,
   (c10_cache_by_fingerprint mW stM rfl).2 .carbon [] [rErr] []⟩

/-! ## Byte-level facts about the escaping codec -/

theorem hexDigit_ne_46 (n : Nat) : hexDigit n ≠ 46 := by
  unfold hexDigit
  split <;> omega

theorem escapeByte_ne_nil (b : Nat) : escapeByte b ≠ [] := by
  unfold escapeByte percentEnc
  split_ifs <;> simp

theorem not_mem_46_escapeByte (b : Nat) : 46 ∉ escapeByte b := by
  unfold escapeByte
  split_ifs with h1 h2 h3
  · intro hc
    simp only [percentEnc, List.mem_cons, List.not_mem_nil, or_false] at hc
    rcases hc with hc | hc | hc
    · omega
    · exact hexDigit_ne_46 _ hc.symm
    · exact hexDigit_ne_46 _ hc.symm
  · intro hc
    simp only [List.mem_cons, List.not_mem_nil, or_false] at hc
    rcases hc with hc | hc
    · omega
    · exact h1 (by simp [← hc])
  · intro hc
    simp only [List.mem_cons, List.not_mem_nil, or_false] at hc
    exact h1 (by simp [← hc])
  · intro hc
    simp only [percentEnc, List.mem_cons, List.not_mem_nil, or_false] at hc
    rcases hc with hc | hc | hc
    · omega
    · exact hexDigit_ne_46 _ hc.symm
    · exact hexDigit_ne_46 _ hc.symm

theorem escape_no_dot (v : Str) : 46 ∉ Escape v := by
  unfold Escape
  intro h
  rw [List.mem_flatMap] at h
  obtain ⟨b, _, hb⟩ := h
  exact not_mem_46_escapeByte b hb

theorem escape_ne_nil {v : Str} (h : v ≠ []) : Escape v ≠ [] := by
  cases v with
  | nil => exact absurd rfl h
  | cons b rest =>
    unfold Escape
    rw [List.flatMap_cons]
    intro hc
    rw [List.append_eq_nil] at hc
    exact escapeByte_ne_nil b hc.1

theorem plainB_escapeByte {b : Nat} (h : plainB b = true) : escapeByte b = [b] := by
  simpa [plainB] using h

theorem plainS_escape {s : Str} (h : plainS s = true) : Escape s = s := by
  induction s with
  | nil => rfl
  | cons b rest ih =>
    rw [plainS, List.all_cons, Bool.and_eq_true] at h
    unfold Escape
    rw [List.flatMap_cons, plainB_escapeByte h.1]
    have h2 := ih h.2
    unfold Escape at h2
    rw [h2]
    rfl

theorem plainS_not_mem {s : Str} (h : plainS s = true) {b : Nat}
    (hb : plainB b = false) : b ∉ s := by
  intro hm
  rw [plainS] at h
  have h2 := List.all_eq_true.mp h b hm
  simp [h2] at hb

theorem pathUnescape_cons_ne (b : Nat) (rest : Str) (hb : b ≠ 37) :
    pathUnescape (b :: rest) = (pathUnescape rest).map (fun r => b :: r) := by
  have hb' : (b == 37) = false := by simpa using hb
  cases rest with
  | nil => simp [pathUnescape, hb']
  | cons c r =>
    cases r with
    | nil => simp [pathUnescape, hb']
    | cons d r2 => simp [pathUnescape, hb']

theorem pathUnescape_no_pct {s : Str} (h : 37 ∉ s) : pathUnescape s = some s := by
  induction s with
  | nil => rfl
  | cons b rest ih =>
    have hb : b ≠ 37 := fun e => h (by simp [e])
    have h' : 37 ∉ rest := fun c => h (List.mem_cons_of_mem _ c)
    rw [pathUnescape_cons_ne b rest hb, ih h']
    rfl

theorem unescapeSlashes_no_bs {s : Str} (h : 92 ∉ s) : unescapeSlashes s = s := by
  induction s with
  | nil => rfl
  | cons b rest ih =>
    cases rest with
    | nil => rfl
    | cons n r2 =>
      have hb : b ≠ 92 := fun e => h (by simp [e])
      have h' : (92 : Nat) ∉ n :: r2 := fun c => h (List.mem_cons_of_mem _ c)
      simp [unescapeSlashes, show (b == 92) = false by simpa using hb, ih h']

theorem plainS_unescape {s : Str} (h : plainS s = true) : Unescape s = s := by
  unfold Unescape
  rw [pathUnescape_no_pct (plainS_not_mem h (show plainB 37 = false by decide))]
  simp only [Option.getD_some]
  exact unescapeSlashes_no_bs (plainS_not_mem h (show plainB 92 = false by decide))

/-! ## Splitting, joining and trimming -/

theorem joinDots_cons (a s : Str) (rest : List Str) :
    joinDots (a :: s :: rest) = a ++ 46 :: joinDots (s :: rest) := rfl

theorem splitGo_no_sep : ∀ (s : Str), 46 ∉ s → ∀ cur,
    splitGo 46 s cur = [cur.reverse ++ s] := by
  intro s
  induction s with
  | nil => intro _ cur; simp [splitGo]
  | cons b rest ih =>
    intro h cur
    have hb : b ≠ 46 := fun e => h (by simp [e])
    have h' : (46 : Nat) ∉ rest := fun c => h (List.mem_cons_of_mem _ c)
    rw [splitGo, if_neg (by simpa using hb)]
    rw [ih h' (b :: cur)]
    simp

theorem splitGo_sep : ∀ (s : Str), 46 ∉ s → ∀ (t cur : Str),
    splitGo 46 (s ++ 46 :: t) cur = (cur.reverse ++ s) :: splitGo 46 t [] := by
  intro s
  induction s with
  | nil => intro _ t cur; simp [splitGo]
  | cons b rest ih =>
    intro h t cur
    have hb : b ≠ 46 := fun e => h (by simp [e])
    have h' : (46 : Nat) ∉ rest := fun c => h (List.mem_cons_of_mem _ c)
    rw [List.cons_append, splitGo, if_neg (by simpa using hb)]
    rw [ih h' t (b :: cur)]
    simp

theorem splitOn_joinDots : ∀ (segs : List Str), (∀ s ∈ segs, 46 ∉ s) → segs ≠ [] →
    splitOn 46 (joinDots segs) = segs := by
  intro segs
  induction segs with
  | nil => intro _ h; exact absurd rfl h
  | cons a rest ih =>
    intro h _
    cases rest with
    | nil =>
      show splitOn 46 (joinDots [a]) = [a]
      unfold splitOn
      rw [show joinDots [a] = a from rfl, splitGo_no_sep a (h a (by simp)) []]
      simp
    | cons s rest' =>
      rw [joinDots_cons]
      unfold splitOn
      rw [splitGo_sep a (h a (by simp)) _ []]
      simp only [List.reverse_nil, List.nil_append]
      congr 1
      have h2 := ih (fun x hx => h x (List.mem_cons_of_mem _ hx)) (by simp)
      unfold splitOn at h2
      exact h2

theorem dropWhile46 {s : Str} (h : s.head? ≠ some 46) :
    s.dropWhile (fun b => b == 46) = s := by
  cases s with
  | nil => rfl
  | cons b rest =>
    have hb : b ≠ 46 := by
      intro e
      exact h (by simp [e])
    simp [List.dropWhile_cons, hb]

theorem trimLead_eq {s : Str} (h : s.head? ≠ some 46) : trimLead s = s :=
  dropWhile46 h

theorem trimTrail_eq {s : Str} (h : s.getLast? ≠ some 46) : trimTrail s = s := by
  unfold trimTrail
  rw [dropWhile46 (by rwa [List.head?_reverse])]
  exact List.reverse_reverse s

theorem trimDots_eq {s : Str} (h1 : s.head? ≠ some 46) (h2 : s.getLast? ≠ some 46) :
    trimDots s = s := by
  unfold trimDots
  rw [trimLead_eq h1, trimTrail_eq h2]

theorem trimPfx_append (p r : Str) : trimPfx (p ++ r) p = r := by
  unfold trimPfx
  rw [if_pos (List.isPrefixOf_iff_prefix.mpr (List.prefix_append p r)), List.drop_left]

/-! ## The flattened pair list of the dotted encoding -/

theorem pairFlat_length (g : Str → Str) (L : List Str) :
    (L.flatMap (fun k => [k, g k])).length = 2 * L.length := by
  induction L with
  | nil => rfl
  | cons k rest ih =>
    simp only [List.flatMap_cons, List.length_append, List.length_cons,
      List.length_nil, ih]
    omega

theorem pairUp_pairFlat (g : Str → Str) (L : List Str) :
    pairUp (L.flatMap (fun k => [k, g k])) =
      L.map (fun k => (Unescape k, Unescape (g k))) := by
  induction L with
  | nil => rfl
  | cons k rest ih =>
    have hstep : (k :: rest).flatMap (fun k => [k, g k]) =
        k :: g k :: rest.flatMap (fun k => [k, g k]) := by
      simp [List.flatMap_cons]
    rw [hstep,
      show pairUp (k :: g k :: rest.flatMap (fun k => [k, g k])) =
        (Unescape k, Unescape (g k)) :: pairUp (rest.flatMap (fun k => [k, g k])) from rfl,
      ih, List.map_cons]

theorem mem_pairFlat {g : Str → Str} {L : List Str} {s : Str}
    (h : s ∈ L.flatMap (fun k => [k, g k])) : ∃ k ∈ L, s = k ∨ s = g k := by
  rw [List.mem_flatMap] at h
  obtain ⟨k, hk, hs⟩ := h
  exact ⟨k, hk, by simpa using hs⟩

theorem getLast?_pairFlat (g : Str → Str) (L : List Str) :
    (L.flatMap (fun k => [k, g k])).getLast? = L.getLast?.map g := by
  induction L with
  | nil => rfl
  | cons k rest ih =>
    cases rest with
    | nil => simp
    | cons k2 r2 =>
      rw [List.flatMap_cons,
        List.getLast?_append_of_ne_nil _ (by simp [List.flatMap_cons]), ih,
        List.getLast?_cons_cons]

theorem mem_of_getLast?Some {l : Str} {a : Nat} (h : l.getLast? = some a) : a ∈ l := by
  have h2 : a ∈ l.getLast? := Option.mem_def.mpr h
  obtain ⟨hne, rfl⟩ := List.mem_getLast?_eq_getLast h2
  exact List.getLast_mem hne

theorem joinDots_ne_nil {segs : List Str} (hne : segs ≠ [])
    (hl : ∀ s ∈ segs, s ≠ []) : joinDots segs ≠ [] := by
  cases segs with
  | nil => exact absurd rfl hne
  | cons s rest =>
    cases rest with
    | nil => exact hl s (by simp)
    | cons s2 r2 =>
      rw [joinDots_cons]
      simp

theorem getLast?_joinDots : ∀ (segs : List Str), (∀ s ∈ segs, s ≠ []) → segs ≠ [] →
    (joinDots segs).getLast? = segs.getLast?.bind (fun s => s.getLast?) := by
  intro segs
  induction segs with
  | nil => intro _ h; exact absurd rfl h
  | cons a rest ih =>
    intro hl _
    cases rest with
    | nil => simp [joinDots]
    | cons s rest' =>
      have hl' : ∀ x ∈ s :: rest', x ≠ [] := fun x hx => hl x (List.mem_cons_of_mem _ hx)
      have hX : joinDots (s :: rest') ≠ [] := joinDots_ne_nil (by simp) hl'
      rw [joinDots_cons, List.getLast?_append_of_ne_nil _ (by simp)]
      cases hJ : joinDots (s :: rest') with
      | nil => exact absurd hJ hX
      | cons y ys =>
        rw [List.getLast?_cons_cons, ← hJ, ih hl' (by simp), List.getLast?_cons_cons]

theorem joinDots_pairFlat (g : Str → Str) : ∀ (L : List Str) (a : Str),
    joinDots (a :: L.flatMap (fun k => [k, g k])) =
      a ++ L.flatMap (fun k => 46 :: (k ++ 46 :: g k)) := by
  intro L
  induction L with
  | nil => intro a; simp [joinDots]
  | cons k rest ih =>
    intro a
    simp only [List.flatMap_cons, List.cons_append, List.nil_append]
    rw [joinDots_cons, joinDots_cons, ih (g k)]
    simp

/-! ## Association-list lemmas for the round trip -/

theorem lookup_some_mem {m : Metric} {k v : Str} (h : m.lookup k = some v) :
    (k, v) ∈ m := by
  induction m with
  | nil => simp [List.lookup] at h
  | cons q rest ih =>
    obtain ⟨qk, qv⟩ := q
    by_cases hb : (k == qk) = true
    · have hk : k = qk := by simpa using hb
      simp only [List.lookup, hb] at h
      obtain rfl : qv = v := by simpa using h
      rw [hk]
      exact List.mem_cons_self _ _
    · have hb' : (k == qk) = false := by simpa using hb
      simp only [List.lookup, hb'] at h
      exact List.mem_cons_of_mem _ (ih h)

theorem perm_cons_filter_key {m : Metric} (hnd : (mKeys m).Nodup) {p : Str × Str}
    (hp : p ∈ m) (hk1 : p.1 = nameLabel) :
    m.Perm (p :: m.filter (fun q => !(q.1 == nameLabel))) := by
  induction m with
  | nil => cases hp
  | cons q rest ih =>
    simp only [mKeys, List.map_cons, List.nodup_cons] at hnd
    rcases List.mem_cons.mp hp with rfl | hp'
    · rw [List.filter_cons, if_neg (by simp [hk1])]
      have hrest : rest.filter (fun q => !(q.1 == nameLabel)) = rest := by
        apply List.filter_eq_self.mpr
        intro q hq
        have hqn : q.1 ≠ nameLabel := by
          intro e
          apply hnd.1
          rw [hk1, ← e]
          exact List.mem_map_of_mem _ hq
        simpa using hqn
      rw [hrest]
    · have hq : q.1 ≠ nameLabel := by
        intro e
        apply hnd.1
        rw [e, ← hk1]
        exact List.mem_map_of_mem _ hp'
      rw [List.filter_cons, if_pos (by simpa using hq)]
      have h1 := (ih hnd.2 hp').cons q
      exact h1.trans (List.Perm.swap p q _)

theorem map_key_mGet {m : Metric} (hnd : (mKeys m).Nodup) {m' : Metric}
    (hsub : ∀ p ∈ m', p ∈ m) :
    (m'.map (fun p => p.1)).map (fun k => (k, mGet m k)) = m' := by
  rw [List.map_map]
  have h : ∀ p ∈ m', ((fun k => (k, mGet m k)) ∘ fun p => p.1) p = id p := by
    intro p hp
    have hl := lookup_of_mem_nodup hnd (hsub p hp)
    simp [Function.comp, mGet, hl]
  rw [List.map_congr_left h, List.map_id]

/-! ## C4 -/

/-- C4 (amended): for a metric with pairwise distinct labels, a present,
non-empty, codec-plain metric name, non-empty codec-plain label names and
non-empty label values the codec round-trips, parsing the single dotted-legacy
default path generated with no rules (and the same prefix) succeeds and
recovers exactly the metric's label set. -/
theorem c4_parse_roundtrip (m : Metric) (pfx : Str) (td : TData) (st : CacheState)
    (nm : Str)
    (hst : st.enabled = false)
    (hnd : (mKeys m).Nodup)
    (hname : m.lookup nameLabel = some nm)
    (hnm : plainS nm = true) (hnm0 : nm ≠ [])
    (hlbls : ∀ p ∈ m, p.1 ≠ nameLabel →
      (p.1 ≠ [] ∧ plainS p.1 = true ∧ p.2 ≠ [] ∧ Unescape (Escape p.2) = p.2)) :
    ∃ labs,
      pathsFromMetric m .carbon pfx [] td st =
        (([defaultPath m .carbon pfx], none), st) ∧
      MetricLabelsFromPath (defaultPath m .carbon pfx) pfx = .ok labs ∧
      labs.Perm m := by
  have hget : mGet m nameLabel = nm := by simp [mGet, hname]
  -- facts about the sorted filtered label names
  have hkey : ∀ k ∈ (List.insertionSort strLe (mKeys m)).filter (fun k => !skipKey k),
      k ≠ nameLabel ∧ k ≠ [] ∧ plainS k = true ∧ mGet m k ≠ [] ∧
        Unescape (Escape (mGet m k)) = mGet m k := by
    intro k hk
    obtain ⟨hs, hpred⟩ := List.mem_filter.mp hk
    have h2 : k ∈ mKeys m := (List.perm_insertionSort strLe (mKeys m)).mem_iff.mp hs
    have hkn : k ≠ nameLabel := by
      intro e
      rw [e] at hpred
      exact absurd hpred (by decide)
    unfold mKeys at h2
    obtain ⟨p, hpm, hpk⟩ := List.mem_map.mp h2
    have hl := hlbls p hpm (by rw [hpk]; exact hkn)
    have hgetk : mGet m k = p.2 := by
      rw [← hpk]
      simp [mGet, lookup_of_mem_nodup hnd hpm]
    refine ⟨hkn, ?_, ?_, ?_, ?_⟩
    · rw [← hpk]; exact hl.1
    · rw [← hpk]; exact hl.2.1
    · rw [hgetk]; exact hl.2.2.1
    · rw [hgetk]; exact hl.2.2.2
  -- abbreviate
  set F := (List.insertionSort strLe (mKeys m)).filter (fun k => !skipKey k) with hF
  set flat := F.flatMap (fun k => [k, Escape (mGet m k)]) with hflat
  have hnm46 : (46 : Nat) ∉ nm := plainS_not_mem hnm (show plainB 46 = false by decide)
  have hflat46 : ∀ s ∈ flat, (46 : Nat) ∉ s := by
    intro s hs
    obtain ⟨k, hk, hcase⟩ := mem_pairFlat hs
    have hk' := hkey k hk
    rcases hcase with rfl | rfl
    · exact plainS_not_mem hk'.2.2.1 (show plainB 46 = false by decide)
    · exact escape_no_dot _
  have hflatnz : ∀ s ∈ flat, s ≠ [] := by
    intro s hs
    obtain ⟨k, hk, hcase⟩ := mem_pairFlat hs
    have hk' := hkey k hk
    rcases hcase with rfl | rfl
    · exact hk'.2.1
    · exact escape_ne_nil hk'.2.2.2.1
  have hsegs46 : ∀ s ∈ nm :: flat, (46 : Nat) ∉ s := by
    intro s hs
    rcases List.mem_cons.mp hs with rfl | hs'
    · exact hnm46
    · exact hflat46 s hs'
  have hsegsnz : ∀ s ∈ nm :: flat, s ≠ [] := by
    intro s hs
    rcases List.mem_cons.mp hs with rfl | hs'
    · exact hnm0
    · exact hflatnz s hs'
  -- the generated path in joined form
  have hdp : defaultPath m .carbon pfx = pfx ++ joinDots (nm :: flat) := by
    rw [defaultPath_carbon, hget, plainS_escape hnm, hflat,
      joinDots_pairFlat (fun k => Escape (mGet m k)) F nm]
    simp
  -- head and last of the joined form are not separators
  have hhead : (joinDots (nm :: flat)).head? ≠ some 46 := by
    have hh : (joinDots (nm :: flat)).head? = nm.head? := by
      rcases hfl : flat with _ | ⟨s, r⟩
      · rfl
      · rw [joinDots_cons, List.head?_append_of_ne_nil _ hnm0]
    rw [hh]
    cases nm with
    | nil => exact absurd rfl hnm0
    | cons b bs =>
      intro hc
      rw [List.head?_cons, Option.some.injEq] at hc
      apply hnm46
      rw [← hc]
      exact List.mem_cons_self b bs
  have hlast : (joinDots (nm :: flat)).getLast? ≠ some 46 := by
    rw [getLast?_joinDots (nm :: flat) hsegsnz (by simp)]
    rcases hFc : F with _ | ⟨k, F'⟩
    · have : flat = [] := by rw [hflat, hFc]; rfl
      rw [this]
      simp only [List.getLast?_singleton, Option.some_bind]
      intro hc
      exact hnm46 (mem_of_getLast?Some hc)
    · have hkl : F.getLast? = some (F.getLast (by rw [hFc]; simp)) :=
        List.getLast?_eq_getLast F _
      have hklmem : F.getLast (by rw [hFc]; simp) ∈ F := List.getLast_mem _
      have hfl2 : flat.getLast? = some (Escape (mGet m (F.getLast (by rw [hFc]; simp)))) := by
        rw [hflat, getLast?_pairFlat, hkl]
        rfl
      have hcc : (nm :: flat).getLast? = flat.getLast? := by
        rcases hflc : flat with _ | ⟨y, ys⟩
        · rw [hflc] at hfl2; simp at hfl2
        · rw [List.getLast?_cons_cons]
      rw [hcc, hfl2]
      simp only [Option.some_bind]
      intro hc
      exact escape_no_dot _ (mem_of_getLast?Some hc)
  -- parsing the generated path
  have hparse : MetricLabelsFromPath (defaultPath m .carbon pfx) pfx =
      .ok ((nameLabel, nm) :: pairUp flat) := by
    have hlen : flat.length = 2 * F.length := by
      rw [hflat]
      exact pairFlat_length _ F
    unfold MetricLabelsFromPath
    rw [hdp, trimPfx_append]
    simp only [trimDots_eq hhead hlast, splitOn_joinDots (nm :: flat) hsegs46 (by simp)]
    rw [if_neg (by simp only [List.length_cons]; omega)]
    simp
  -- the parsed pairs are the metric's non-name entries
  have hpair : pairUp flat = F.map (fun k => (k, mGet m k)) := by
    rw [hflat, pairUp_pairFlat]
    apply List.map_congr_left
    intro k hk
    have hk' := hkey k hk
    rw [plainS_unescape hk'.2.2.1, hk'.2.2.2.2]
  -- permutation with the metric
  have hp0mem : (nameLabel, nm) ∈ m := lookup_some_mem hname
  have hFperm : F.Perm ((mKeys m).filter (fun k => !skipKey k)) :=
    (List.perm_insertionSort strLe (mKeys m)).filter _
  have hfil_eq : (mKeys m).filter (fun k => !skipKey k) =
      (mKeys m).filter (fun k => !(k == nameLabel)) := by
    apply List.filter_congr
    intro k hk
    by_cases hkn : k = nameLabel
    · rw [hkn]
      decide
    · have hk0 : k ≠ [] := by
        unfold mKeys at hk
        obtain ⟨p, hpm, hpk⟩ := List.mem_map.mp hk
        rw [← hpk]
        exact (hlbls p hpm (by rw [hpk]; exact hkn)).1
      simp [skipKey, hkn, hk0]
  have hmapfil : (mKeys m).filter (fun k => !(k == nameLabel)) =
      (m.filter (fun p => !(p.1 == nameLabel))).map (fun p => p.1) := by
    unfold mKeys
    rw [List.filter_map]
    rfl
  have hsub : ∀ p ∈ m.filter (fun p => !(p.1 == nameLabel)), p ∈ m :=
    fun p hp => List.mem_of_mem_filter hp
  have hmapback :
      ((m.filter (fun p => !(p.1 == nameLabel))).map (fun p => p.1)).map
        (fun k => (k, mGet m k)) = m.filter (fun p => !(p.1 == nameLabel)) :=
    map_key_mGet hnd hsub
  have hFm : (F.map (fun k => (k, mGet m k))).Perm
      (m.filter (fun p => !(p.1 == nameLabel))) := by
    have h1 := hFperm.map (fun k => (k, mGet m k))
    rw [hfil_eq, hmapfil, hmapback] at h1
    exact h1
  have hperm : ((nameLabel, nm) :: F.map (fun k => (k, mGet m k))).Perm m := by
    have h2 : m.Perm ((nameLabel, nm) :: m.filter (fun q => !(q.1 == nameLabel))) :=
      perm_cons_filter_key hnd hp0mem rfl
    have h3 := hFm.cons ((nameLabel, nm))
    exact h3.trans h2.symm
  -- assemble
  refine ⟨(nameLabel, nm) :: pairUp flat, ?_, hparse, ?_⟩
  · rw [pathsFromMetric_disabled m .carbon pfx [] td st hst]
    simp [templatedPaths, tpGo]
  · rw [hpair]
    exact hperm

/-- Witness for the amended C4 on `mW` (name `nm`, label `owner=tX`,
prefix `p.`). -/
theorem c4_parse_roundtrip_witness :
    stD.enabled = false ∧ (mKeys mW).Nodup ∧
    mW.lookup nameLabel = some [110, 109] ∧
    (∃ labs,
      pathsFromMetric mW .carbon [112, 46] [] [] stD =
        (([defaultPath mW .carbon [112, 46]], none), stD) ∧
      MetricLabelsFromPath (defaultPath mW .carbon [112, 46]) [112, 46] = .ok labs ∧
      labs.Perm mW) :=
  ⟨rfl, by decide, by decide,
   c4_parse_roundtrip mW [112, 46] [] stD [110, 109] rfl (by decide) (by decide)
     (by decide) (by decide) (by decide)⟩

/-- C4 counterexample to the claim as stated: a metric with an empty label
value (a value trivially made of codec-representable characters) generates a
default path with a trailing separator; trimming eats it and parsing then
fails with the odd-node error instead of recovering the labels. -/
theorem c4_empty_value_fails :
    pathsFromMetric [(nameLabel, [110]), ([97], [])] .carbon [112, 46] [] [] stD =
      (([defaultPath [(nameLabel, [110]), ([97], [])] .carbon [112, 46]], none), stD) ∧
    MetricLabelsFromPath (defaultPath [(nameLabel, [110]), ([97], [])] .carbon [112, 46])
      [112, 46] = .error .oddNodes := ⟨rfl, rfl⟩

end Gra
